import Mathlib

/-!
Verification of the generic fixed-key-size hashmap in `hashmap.c`
(the variant with `hashmap_create_with_key_size`, FNV-1a hashing and
`memcmp` comparison).

Modelling conventions:
* C pointers are natural numbers; the null pointer is `0`.
* Byte memory is a fixed, read-only function `mem : Nat -> Nat`; a read of
  the byte at address `a` is `mem a % 256` (the library never writes key
  bytes, so a constant memory is faithful for these operations).
* `size_t` arithmetic: hash values are reduced `% 2 ^ 64` where the C code
  can wrap (the FNV multiply); other size computations stay far below
  `2 ^ 64` in every claim considered, so they are plain `Nat` operations.
* A bucket chain (`entry_t *` with `next` links) is a `List Entry`,
  head = most recently prepended entry.
* Out-parameters and in-place mutation become explicit return values.
* `malloc`/`calloc` success is an explicit boolean oracle argument
  (`callocOk` for the resize's bucket array, `mallocOk` for a new entry);
  the callbacks `key_free`/`value_free` are modelled by a `Bool`
  (configured or not) plus the returned list of pointers that the call
  would release, in release order.
-/

/-- One byte read `data[i]` at address `p`: memory cells are bytes. -/
def byteAt (mem : Nat → Nat) (p : Nat) : Nat := mem p % 256

/-- The `n` bytes stored at addresses `p, p+1, ..., p+n-1`. -/
def keyBytes (mem : Nat → Nat) : Nat → Nat → List Nat
  | _, 0 => []
  | p, n + 1 => byteAt mem p :: keyBytes mem (p + 1) n

/-- FNV-1a over a byte list, `hashmap.c` lines 304-314: start from the
offset basis 2166136261, then xor the byte in and multiply by the FNV
prime 16777619, wrapping in a 64-bit `size_t`. -/
def fnvFold (bs : List Nat) : Nat :=
  bs.foldl (fun h b => ((h ^^^ b) * 16777619) % 2 ^ 64) 2166136261

/-- `generic_hash(key, key_size)` (`hashmap.c` 304-314): FNV-1a over the
`key_size` bytes at `key`. -/
def generic_hash (mem : Nat → Nat) (key key_size : Nat) : Nat :=
  fnvFold (keyBytes mem key key_size)

/-- C `memcmp(p1, p2, n)`: 0 if the `n` bytes agree, otherwise the
difference of the first differing bytes (as unsigned chars). -/
def memcmp (mem : Nat → Nat) : Nat → Nat → Nat → Int
  | _, _, 0 => 0
  | p1, p2, n + 1 =>
    if byteAt mem p1 = byteAt mem p2 then memcmp mem (p1 + 1) (p2 + 1) n
    else (byteAt mem p1 : Int) - (byteAt mem p2 : Int)

/-- `generic_compare(key1, key2, key_size)` (`hashmap.c` 317-319). -/
def generic_compare (mem : Nat → Nat) (key1 key2 key_size : Nat) : Int :=
  memcmp mem key1 key2 key_size

/-- `entry_t` (`hashmap.c` 269-273): `key` and `value` are the stored
pointers; the `next` link is modelled by the enclosing `List Entry`. -/
structure Entry where
  key : Nat
  value : Nat
deriving DecidableEq, Repr

/-- `struct hashmap` (`hashmap.c` 276-285).  `key_size = 0` means custom
functions; `> 0` means generic byte-wise mode.  The function-pointer
fields are `none` when NULL. -/
structure Hashmap where
  buckets : List (List Entry)
  capacity : Nat
  size : Nat
  key_size : Nat
  hash_func : Option (Nat → Nat)
  key_compare : Option (Nat → Nat → Int)
  key_free : Bool
  value_free : Bool

/-- The dispatch `map->key_size > 0 ? generic_hash(...) : map->hash_func(...)`
repeated at `hashmap.c` 451-453, 484-486, 527-529, 552-554.  Calling a NULL
`hash_func` is undefined behaviour in C and unreachable for maps built by
either constructor; the `getD` default stands in for that dead branch. -/
def hashOf (mem : Nat → Nat) (m : Hashmap) (key : Nat) : Nat :=
  if 0 < m.key_size then generic_hash mem key m.key_size
  else (m.hash_func.getD (fun _ => 0)) key

/-- The dispatch `map->key_size > 0 ? generic_compare(...) : map->key_compare(...)`
repeated at `hashmap.c` 492-494, 534-536, 561-563. -/
def keyCmp (mem : Nat → Nat) (m : Hashmap) (key1 key2 : Nat) : Int :=
  if 0 < m.key_size then generic_compare mem key1 key2 m.key_size
  else (m.key_compare.getD (fun _ _ => 0)) key1 key2

/-- `hashmap_create` (`hashmap.c` 322-360): default capacity 16 when the
hint is 0; fails (NULL) when `hash_func` or `key_compare` is absent;
`key_size = 0` marks custom-function mode. -/
def hashmap_create (initial_capacity : Nat) (hash_func : Option (Nat → Nat))
    (key_compare : Option (Nat → Nat → Int)) (key_free value_free : Bool) :
    Option Hashmap :=
  let cap := if initial_capacity = 0 then 16 else initial_capacity
  match hash_func, key_compare with
  | some hf, some kc =>
    some { buckets := List.replicate cap [], capacity := cap, size := 0,
           key_size := 0, hash_func := some hf, key_compare := some kc,
           key_free := key_free, value_free := value_free }
  | _, _ => none

/-- `hashmap_create_with_key_size` (`hashmap.c` 363-397): default capacity
16 when the hint is 0; fails (NULL) when `key_size == 0`; generic mode
leaves the function pointers NULL. -/
def hashmap_create_with_key_size (initial_capacity key_size : Nat)
    (key_free value_free : Bool) : Option Hashmap :=
  let cap := if initial_capacity = 0 then 16 else initial_capacity
  if key_size = 0 then none
  else
    some { buckets := List.replicate cap [], capacity := cap, size := 0,
           key_size := key_size, hash_func := none, key_compare := none,
           key_free := key_free, value_free := value_free }

/-- `entry->next = new_buckets[new_index]; new_buckets[new_index] = entry`
(`hashmap.c` 457-458): prepend `e` to the chain at slot `idx`. -/
def prependAt (nb : List (List Entry)) (idx : Nat) (e : Entry) :
    List (List Entry) :=
  nb.set idx (e :: nb.getD idx [])

/-- `hashmap_resize` (`hashmap.c` 438-469): fresh zeroed bucket array of
`new_capacity` slots (`none` if that calloc fails), then every entry of
every old chain, walked head first, is prepended into slot
`hash % new_capacity` of the new array; finally the bucket array and
capacity are replaced. -/
def hashmap_resize (mem : Nat → Nat) (callocOk : Bool) (m : Hashmap)
    (new_capacity : Nat) : Option Hashmap :=
  if callocOk then
    some { m with
      buckets := m.buckets.foldl
        (fun nb chain => chain.foldl
          (fun nb e => prependAt nb (hashOf mem m e.key % new_capacity) e) nb)
        (List.replicate new_capacity []),
      capacity := new_capacity }
  else none

/-- The update scan of `hashmap_put` (`hashmap.c` 490-504): walk the chain;
at the first entry whose key compares equal, release the old value (when a
`value_free` is configured and the pointers differ) and overwrite the
value pointer; `none` when the chain has no match. -/
def scanUpdate (mem : Nat → Nat) (m : Hashmap) (key value : Nat) :
    List Entry → Option (List Entry × List Nat)
  | [] => none
  | e :: rest =>
    if keyCmp mem m e.key key = 0 then
      some ({ e with value := value } :: rest,
            if m.value_free ∧ e.value ≠ value then [e.value] else [])
    else
      match scanUpdate mem m key value rest with
      | none => none
      | some (rest1, freed) => some (e :: rest1, freed)

/-- The load-factor step of `hashmap_put` (`hashmap.c` 477-482): when
`size >= capacity * 3 / 4`, resize to `capacity * 2` (propagating a
failed allocation), otherwise keep the map as is. -/
def growIfNeeded (mem : Nat → Nat) (callocOk : Bool) (m : Hashmap) :
    Option Hashmap :=
  if m.capacity * 3 / 4 ≤ m.size then hashmap_resize mem callocOk m (m.capacity * 2)
  else some m

/-- `hashmap_put` (`hashmap.c` 472-519), with `growIfNeeded` as the
load-factor step of lines 477-482.  Returns (success, map after the call,
value pointers released).  NULL map or NULL key is rejected; a failed
resize fails the put with the original map; then the target chain is
scanned for an update; otherwise a new entry holding the caller's key
pointer is prepended and `size` incremented (a failed entry malloc fails
the put, keeping the post-resize map). -/
def hashmap_put (mem : Nat → Nat) (callocOk mallocOk : Bool) :
    Option Hashmap → Nat → Nat → Bool × Option Hashmap × List Nat
  | none, _, _ => (false, none, [])
  | some m, key, value =>
    if key = 0 then (false, some m, [])
    else
      match growIfNeeded mem callocOk m with
      | none => (false, some m, [])
      | some m1 =>
        let index := hashOf mem m1 key % m1.capacity
        let chain := m1.buckets.getD index []
        match scanUpdate mem m1 key value chain with
        | some (chain1, freed) =>
          (true, some { m1 with buckets := m1.buckets.set index chain1 }, freed)
        | none =>
          if mallocOk then
            (true, some { m1 with
              buckets := m1.buckets.set index
                ({ key := key, value := value } :: chain),
              size := m1.size + 1 }, [])
          else (false, some m1, [])

/-- The lookup scan of `hashmap_get` (`hashmap.c` 532-541): value pointer
of the first entry in the chain whose key compares equal, else NULL. -/
def scanGet (mem : Nat → Nat) (m : Hashmap) (key : Nat) : List Entry → Nat
  | [] => 0
  | e :: rest =>
    if keyCmp mem m e.key key = 0 then e.value else scanGet mem m key rest

/-- `hashmap_get` (`hashmap.c` 522-544): NULL (0) for a NULL map or key,
else the first match in the chain at `hash % capacity`, else NULL. -/
def hashmap_get (mem : Nat → Nat) : Option Hashmap → Nat → Nat
  | none, _ => 0
  | some m, key =>
    if key = 0 then 0
    else scanGet mem m key (m.buckets.getD (hashOf mem m key % m.capacity) [])

/-- `hashmap_contains` (`hashmap.c` 592-594): `hashmap_get(...) != NULL`. -/
def hashmap_contains (mem : Nat → Nat) (m : Option Hashmap) (key : Nat) :
    Bool :=
  decide (hashmap_get mem m key ≠ 0)

/-- `hashmap_clear` (`hashmap.c` 411-435): releases every entry of every
chain (key via `key_free` and value via `value_free` when configured),
empties every bucket and zeroes `size`; safe no-op on NULL.  Returns
(map after the call, key pointers released, value pointers released). -/
def hashmap_clear : Option Hashmap → Option Hashmap × List Nat × List Nat
  | none => (none, [], [])
  | some m =>
    (some { m with buckets := List.replicate m.capacity [], size := 0 },
     if m.key_free then (m.buckets.flatten).map Entry.key else [],
     if m.value_free then (m.buckets.flatten).map Entry.value else [])

/-- `hashmap_destroy` (`hashmap.c` 400-408): clear, then free the bucket
array and the map object (the resulting handle is gone); safe no-op on
NULL. -/
def hashmap_destroy : Option Hashmap → Option Hashmap × List Nat × List Nat
  | none => (none, [], [])
  | some m =>
    let c := hashmap_clear (some m)
    (none, c.2.1, c.2.2)

/-- `hashmap_size` (`hashmap.c` 597-599): 0 on a NULL map. -/
def hashmap_size : Option Hashmap → Nat
  | none => 0
  | some m => m.size

/-- `hashmap_is_empty` (`hashmap.c` 602-604): true on a NULL map. -/
def hashmap_is_empty : Option Hashmap → Bool
  | none => true
  | some m => decide (m.size = 0)

/-- All live entries of the table, bucket 0 chain first. -/
def entriesOf (m : Hashmap) : List Entry := m.buckets.flatten

/-- The byte content of an entry's key under key size `ks`. -/
def entryBytes (mem : Nat → Nat) (ks : Nat) (e : Entry) : List Nat :=
  keyBytes mem e.key ks

/-- The lookup predicate on entries: does the entry's key byte content
equal `kb`? -/
def bytePred (mem : Nat → Nat) (ks : Nat) (kb : List Nat) (e : Entry) : Bool :=
  decide (entryBytes mem ks e = kb)

/-- Value pointer stored for the key whose byte content is `kb`, searching
every chain (first match). -/
def lookupVal (mem : Nat → Nat) (m : Hashmap) (kb : List Nat) : Option Nat :=
  ((entriesOf m).find? (bytePred mem m.key_size kb)).map Entry.value

/-- Validity of a generic-mode table state: the bucket array has exactly
`capacity` slots, capacity and key size are positive, every entry sits in
the chain of its home slot `hash % capacity`, and no two entries hold
keys with the same byte content. -/
def TableInv (mem : Nat → Nat) (m : Hashmap) : Prop :=
  m.buckets.length = m.capacity ∧
  0 < m.capacity ∧
  0 < m.key_size ∧
  (∀ i, i < m.buckets.length → ∀ e, e ∈ m.buckets.getD i [] →
    hashOf mem m e.key % m.capacity = i) ∧
  List.Pairwise Ne ((entriesOf m).map (entryBytes mem m.key_size))

/-- Folding `hashmap_put` (with all allocations succeeding) over a list of
(key pointer, value pointer) pairs. -/
def putAll (mem : Nat → Nat) (m : Option Hashmap) (ps : List (Nat × Nat)) :
    Option Hashmap :=
  ps.foldl (fun acc p => (hashmap_put mem true true acc p.1 p.2).2.1) m

instance (mem : Nat → Nat) (m : Hashmap) : Decidable (TableInv mem m) := by
  unfold TableInv
  infer_instance


def memB : Nat → Nat := fun a => a % 256

def mapW1 : Hashmap :=
  { buckets := [[], []], capacity := 2, size := 0, key_size := 2,
    hash_func := none, key_compare := none, key_free := false,
    value_free := false }

def mapC10 : Hashmap :=
  { buckets := [[{ key := 5, value := 9 }]], capacity := 1, size := 1,
    key_size := 1, hash_func := none, key_compare := none,
    key_free := false, value_free := false }

def mapC4 : Hashmap :=
  { buckets := [[{ key := 5, value := 9 }]], capacity := 1, size := 1,
    key_size := 1, hash_func := none, key_compare := none,
    key_free := false, value_free := false }

/-- Byte memory holding a 2-byte buffer [1, 2] at address 100 and a
3-byte buffer [1, 2, 3] at address 200. -/
def mem7 : Nat → Nat := fun a =>
  if 100 ≤ a ∧ a < 102 then a - 99
  else if 200 ≤ a ∧ a < 203 then a - 199 else 0

def mapC5 : Hashmap :=
  { buckets := [[{ key := 5, value := 9 }]], capacity := 1, size := 1,
    key_size := 1, hash_func := none, key_compare := none,
    key_free := false, value_free := true }

/-- Concrete pair list for the growth witness. -/
def pairsW : List (Nat × Nat) := [(10, 1), (20, 2), (30, 3)]


/-- `memcmp` returns 0 exactly when the two byte blocks agree. -/
theorem memcmp_eq_zero_iff (mem : Nat → Nat) :
    ∀ (n p1 p2 : Nat),
      memcmp mem p1 p2 n = 0 ↔ keyBytes mem p1 n = keyBytes mem p2 n := by
  intro n
  induction n with
  | zero => intro p1 p2; simp [memcmp, keyBytes]
  | succ n ih =>
    intro p1 p2
    by_cases h : byteAt mem p1 = byteAt mem p2
    · simp [memcmp, keyBytes, h, ih]
    · have hcast : ((byteAt mem p1 : Int) - (byteAt mem p2 : Int)) ≠ 0 := by
        intro hz
        exact h (by exact_mod_cast sub_eq_zero.mp hz)
      simp [memcmp, keyBytes, h, hcast]

/-- In generic mode, key comparison succeeds exactly on equal byte
content. -/
theorem keyCmp_eq_zero_iff (mem : Nat → Nat) (m : Hashmap)
    (hks : 0 < m.key_size) (a b : Nat) :
    keyCmp mem m a b = 0 ↔
      keyBytes mem a m.key_size = keyBytes mem b m.key_size := by
  simp [keyCmp, hks, generic_compare, memcmp_eq_zero_iff]

/-- In generic mode, the hash depends only on the key's byte content. -/
theorem hashOf_congr (mem : Nat → Nat) (m : Hashmap) (hks : 0 < m.key_size)
    {a b : Nat}
    (h : keyBytes mem a m.key_size = keyBytes mem b m.key_size) :
    hashOf mem m a = hashOf mem m b := by
  simp [hashOf, hks, generic_hash, h]

theorem prependAt_length (nb : List (List Entry)) (idx : Nat) (e : Entry) :
    (prependAt nb idx e).length = nb.length := by
  simp [prependAt]

theorem foldl_prependAt_length (f : Entry → Nat) :
    ∀ (chain : List Entry) (nb : List (List Entry)),
      (chain.foldl (fun nb e => prependAt nb (f e) e) nb).length = nb.length := by
  intro chain
  induction chain with
  | nil => intro nb; rfl
  | cons e rest ih =>
    intro nb
    simp only [List.foldl_cons]
    rw [ih, prependAt_length]

/-- Resizing with a successful allocation keeps a bucket array of exactly
`new_capacity` slots and only changes `buckets` and `capacity`. -/
theorem resize_fields (mem : Nat → Nat) (m : Hashmap) (nc : Nat) :
    ∃ m', hashmap_resize mem true m nc = some m' ∧
      m'.buckets.length = nc ∧ m'.capacity = nc ∧
      m'.size = m.size ∧ m'.key_size = m.key_size ∧
      m'.hash_func = m.hash_func ∧ m'.key_compare = m.key_compare ∧
      m'.key_free = m.key_free ∧ m'.value_free = m.value_free := by
  refine ⟨_, rfl, ?_, rfl, rfl, rfl, rfl, rfl, rfl, rfl⟩
  show (m.buckets.foldl _ (List.replicate nc [])).length = nc
  have : ∀ (bs : List (List Entry)) (nb : List (List Entry)),
      (bs.foldl (fun nb chain => chain.foldl
        (fun nb e => prependAt nb (hashOf mem m e.key % nc) e) nb) nb).length
        = nb.length := by
    intro bs
    induction bs with
    | nil => intro nb; rfl
    | cons c rest ih =>
      intro nb
      simp only [List.foldl_cons]
      rw [ih, foldl_prependAt_length (fun e => hashOf mem m e.key % nc)]
  rw [this, List.length_replicate]

theorem getD_set_self {α : Type} (l : List α) (i : Nat) (x d : α)
    (h : i < l.length) : (l.set i x).getD i d = x := by
  simp [List.getD_eq_getElem?_getD, List.getElem?_set_self, h]

theorem getD_set_of_ne {α : Type} (l : List α) (i j : Nat) (x d : α)
    (h : j ≠ i) : (l.set i x).getD j d = l.getD j d := by
  rw [List.getD_eq_getElem?_getD, List.getElem?_set_ne (Ne.symm h),
    List.getD_eq_getElem?_getD]

theorem getD_of_le {α : Type} (l : List α) (i : Nat) (d : α)
    (h : l.length ≤ i) : l.getD i d = d := by
  simp [List.getD_eq_getElem?_getD, List.getElem?_eq_none h]

/-- With a succeeding allocation, the load-factor step always yields a
map, with a well-sized bucket array and all non-bucket fields except
`capacity` intact. -/
theorem growIfNeeded_spec (mem : Nat → Nat) (m : Hashmap)
    (hlen : m.buckets.length = m.capacity) :
    ∃ m1, growIfNeeded mem true m = some m1 ∧
      m1.buckets.length = m1.capacity ∧
      (m1.capacity = m.capacity ∨ m1.capacity = m.capacity * 2) ∧
      m1.size = m.size ∧ m1.key_size = m.key_size ∧
      m1.hash_func = m.hash_func ∧ m1.key_compare = m.key_compare ∧
      m1.key_free = m.key_free ∧ m1.value_free = m.value_free := by
  unfold growIfNeeded
  by_cases hload : m.capacity * 3 / 4 ≤ m.size
  · obtain ⟨m1, hres, h1, h2, h3, h4, h5, h6, h7, h8⟩ :=
      resize_fields mem m (m.capacity * 2)
    exact ⟨m1, by rw [if_pos hload, hres], by rw [h1, h2], Or.inr h2,
      h3, h4, h5, h6, h7, h8⟩
  · exact ⟨m, by rw [if_neg hload], hlen, Or.inl rfl, rfl, rfl, rfl, rfl,
      rfl, rfl⟩

/-- If the update scan succeeded, a lookup scan of the resulting chain
with any key that matches exactly where the stored key matches returns
the new value. -/
theorem scanGet_after_scanUpdate (mem : Nat → Nat) (m : Hashmap)
    (k k' v : Nat)
    (hmatch : ∀ e : Entry, keyCmp mem m e.key k' = 0 ↔ keyCmp mem m e.key k = 0) :
    ∀ (chain chain1 : List Entry) (freed : List Nat),
      scanUpdate mem m k v chain = some (chain1, freed) →
      scanGet mem m k' chain1 = v := by
  intro chain
  induction chain with
  | nil => intro chain1 freed h; simp [scanUpdate] at h
  | cons e rest ih =>
    intro chain1 freed h
    by_cases hc : keyCmp mem m e.key k = 0
    · simp only [scanUpdate, if_pos hc, Option.some.injEq, Prod.mk.injEq] at h
      rw [← h.1]
      have : keyCmp mem m ({ e with value := v } : Entry).key k' = 0 :=
        (hmatch e).mpr hc
      simp [scanGet, this]
    · simp only [scanUpdate, if_neg hc] at h
      cases hrec : scanUpdate mem m k v rest with
      | none => rw [hrec] at h; simp at h
      | some p =>
        rw [hrec] at h
        obtain ⟨rest1, fr⟩ := p
        simp only [Option.some.injEq, Prod.mk.injEq] at h
        have hc' : ¬ keyCmp mem m e.key k' = 0 := fun hx => hc ((hmatch e).mp hx)
        rw [← h.1]
        simp only [scanGet, if_neg hc']
        exact ih rest1 fr hrec

theorem hashOf_ext (mem : Nat → Nat) (m m' : Hashmap)
    (h1 : m'.key_size = m.key_size) (h2 : m'.hash_func = m.hash_func)
    (k : Nat) : hashOf mem m' k = hashOf mem m k := by
  simp [hashOf, h1, h2]

theorem keyCmp_ext (mem : Nat → Nat) (m m' : Hashmap)
    (h1 : m'.key_size = m.key_size) (h2 : m'.key_compare = m.key_compare)
    (a b : Nat) : keyCmp mem m' a b = keyCmp mem m a b := by
  simp [keyCmp, h1, h2]

theorem scanGet_congr (mem : Nat → Nat) (m m' : Hashmap)
    (h1 : m'.key_size = m.key_size) (h2 : m'.key_compare = m.key_compare)
    (k : Nat) : ∀ chain, scanGet mem m' k chain = scanGet mem m k chain := by
  intro chain
  induction chain with
  | nil => rfl
  | cons e rest ih =>
    simp only [scanGet, keyCmp_ext mem m m' h1 h2, ih]

/-- Core round-trip lemma: on a table with a well-sized bucket array,
positive capacity and positive key size, `hashmap_put` (allocations
succeeding) returns success, and a following `hashmap_get` with any
non-null pointer to the same `key_size` bytes returns the stored value. -/
theorem put_then_get_aux (mem : Nat → Nat) (m : Hashmap)
    (k k2 v : Nat)
    (hlen : m.buckets.length = m.capacity) (hcap : 0 < m.capacity)
    (hks : 0 < m.key_size) (hk : k ≠ 0) (hk2 : k2 ≠ 0)
    (hbytes : keyBytes mem k2 m.key_size = keyBytes mem k m.key_size) :
    (hashmap_put mem true true (some m) k v).1 = true ∧
    hashmap_get mem ((hashmap_put mem true true (some m) k v).2.1) k2 = v := by
  obtain ⟨m1, hgrow, hlen1, hcapor, hsz1, hks1, hhf1, hkc1, hkf1, hvf1⟩ :=
    growIfNeeded_spec mem m hlen
  have hcap1 : 0 < m1.capacity := by rcases hcapor with h | h <;> omega
  have hks1p : 0 < m1.key_size := by rw [hks1]; exact hks
  have hbytes1 : keyBytes mem k2 m1.key_size = keyBytes mem k m1.key_size := by
    rw [hks1]; exact hbytes
  have hmatch : ∀ e : Entry,
      keyCmp mem m1 e.key k2 = 0 ↔ keyCmp mem m1 e.key k = 0 := by
    intro e
    rw [keyCmp_eq_zero_iff mem m1 hks1p, keyCmp_eq_zero_iff mem m1 hks1p,
      hbytes1]
  have hhash : hashOf mem m1 k2 = hashOf mem m1 k :=
    hashOf_congr mem m1 hks1p hbytes1
  have hidx : hashOf mem m1 k % m1.capacity < m1.buckets.length := by
    rw [hlen1]; exact Nat.mod_lt _ hcap1
  simp only [hashmap_put, if_neg hk, hgrow]
  cases hsc : scanUpdate mem m1 k v
      (m1.buckets.getD (hashOf mem m1 k % m1.capacity) []) with
  | some p =>
    obtain ⟨chain1, freed⟩ := p
    refine ⟨rfl, ?_⟩
    simp only [hashmap_get, if_neg hk2]
    rw [scanGet_congr mem m1 { m1 with
        buckets := m1.buckets.set (hashOf mem m1 k % m1.capacity) chain1 }
        rfl rfl,
      hashOf_ext mem m1 { m1 with
        buckets := m1.buckets.set (hashOf mem m1 k % m1.capacity) chain1 }
        rfl rfl]
    show scanGet mem m1 k2
      ((m1.buckets.set (hashOf mem m1 k % m1.capacity) chain1).getD
        (hashOf mem m1 k2 % m1.capacity) []) = v
    rw [hhash, getD_set_self _ _ _ _ hidx]
    exact scanGet_after_scanUpdate mem m1 k k2 v hmatch _ chain1 freed hsc
  | none =>
    simp only [if_true]
    refine ⟨trivial, ?_⟩
    simp only [hashmap_get, if_neg hk2]
    rw [scanGet_congr mem m1 { m1 with
        buckets := m1.buckets.set (hashOf mem m1 k % m1.capacity)
          ({ key := k, value := v } ::
            m1.buckets.getD (hashOf mem m1 k % m1.capacity) []),
        size := m1.size + 1 } rfl rfl,
      hashOf_ext mem m1 { m1 with
        buckets := m1.buckets.set (hashOf mem m1 k % m1.capacity)
          ({ key := k, value := v } ::
            m1.buckets.getD (hashOf mem m1 k % m1.capacity) []),
        size := m1.size + 1 } rfl rfl]
    show scanGet mem m1 k2
      ((m1.buckets.set (hashOf mem m1 k % m1.capacity)
          ({ key := k, value := v } ::
            m1.buckets.getD (hashOf mem m1 k % m1.capacity) [])).getD
        (hashOf mem m1 k2 % m1.capacity) []) = v
    rw [hhash, getD_set_self _ _ _ _ hidx]
    have hhead : keyCmp mem m1 ({ key := k, value := v } : Entry).key k2 = 0 := by
      rw [keyCmp_eq_zero_iff mem m1 hks1p]
      exact hbytes1.symm
    simp [scanGet, hhead]

/-- C1: on a valid generic-mode table (well-sized bucket array, positive
capacity, key length `key_size > 0`), for every byte memory — hence every
key byte sequence, zero bytes included — and every value pointer,
`hashmap_put` of key `k` returns success and a following `hashmap_get`
with the same key returns exactly the stored value. -/
theorem c1_put_then_get_returns_value (mem : Nat → Nat) (m : Hashmap)
    (k v : Nat)
    (hlen : m.buckets.length = m.capacity) (hcap : 0 < m.capacity)
    (hks : 0 < m.key_size) (hk : k ≠ 0) :
    (hashmap_put mem true true (some m) k v).1 = true ∧
    hashmap_get mem ((hashmap_put mem true true (some m) k v).2.1) k = v :=
  put_then_get_aux mem m k k v hlen hcap hks hk hk rfl

theorem c1_witness :
    mapW1.buckets.length = mapW1.capacity ∧ 0 < mapW1.capacity ∧
    0 < mapW1.key_size ∧ (10 : Nat) ≠ 0 ∧
    ((hashmap_put memB true true (some mapW1) 10 7).1 = true ∧
     hashmap_get memB ((hashmap_put memB true true (some mapW1) 10 7).2.1) 10 = 7) :=
  ⟨by decide, by decide, by decide, by decide,
   c1_put_then_get_returns_value memB mapW1 10 7 (by decide) (by decide)
     (by decide) (by decide)⟩

/-- C3: `hashmap_put` rejects a NULL map and a NULL key pointer with
`false` and no change to any state, and a zero key length is rejected by
`hashmap_create_with_key_size` returning NULL, so no generic-mode table
with key length 0 ever exists for `put` to be called on. -/
theorem c3_invalid_arguments_rejected :
    (∀ (mem : Nat → Nat) (co mo : Bool) (k v : Nat),
      hashmap_put mem co mo none k v = (false, none, [])) ∧
    (∀ (mem : Nat → Nat) (co mo : Bool) (m : Hashmap) (v : Nat),
      hashmap_put mem co mo (some m) 0 v = (false, some m, [])) ∧
    (∀ (cap : Nat) (kf vf : Bool),
      hashmap_create_with_key_size cap 0 kf vf = none) :=
  ⟨fun _ _ _ _ _ => rfl,
   fun mem co mo m v => by simp [hashmap_put],
   fun cap kf vf => by simp [hashmap_create_with_key_size]⟩

/-- C8: `hashmap_destroy` and `hashmap_clear` are safe no-ops on a NULL
table (no release callbacks run), `hashmap_size` reports 0 and
`hashmap_is_empty` reports true on a NULL table. -/
theorem c8_null_table_tolerated :
    hashmap_destroy none = (none, [], []) ∧
    hashmap_clear none = (none, [], []) ∧
    hashmap_size none = 0 ∧
    hashmap_is_empty none = true :=
  ⟨rfl, rfl, rfl, rfl⟩

/-- C10: a concrete table of capacity 1 already containing key 5 (value
9): `hashmap_put` of the same key succeeds as an update — `size` stays 1
and the new value is stored — yet capacity doubles to 2, because the
load-factor check and resize run before the chain is scanned. -/
theorem c10_update_still_doubles_capacity :
    hashmap_get memB (some mapC10) 5 = 9 ∧
    mapC10.capacity = 1 ∧ mapC10.size = 1 ∧
    (hashmap_put memB true true (some mapC10) 5 11).1 = true ∧
    ((hashmap_put memB true true (some mapC10) 5 11).2.1).elim 0
      Hashmap.capacity = 2 ∧
    ((hashmap_put memB true true (some mapC10) 5 11).2.1).elim 0
      Hashmap.size = 1 ∧
    hashmap_get memB ((hashmap_put memB true true (some mapC10) 5 11).2.1)
      5 = 11 := by
  refine ⟨?_, rfl, rfl, ?_, ?_, ?_, ?_⟩ <;> decide

/-- C4 (counterexample): on a capacity-1 table holding one entry, a
`hashmap_put` of a new key whose resize allocation succeeds but whose
entry allocation fails reports failure, yet the table's capacity has
changed from 1 to 2 — the table is not left exactly as it was. -/
theorem c4_counterexample_failed_put_changed_capacity :
    (hashmap_put memB true false (some mapC4) 7 3).1 = false ∧
    mapC4.capacity = 1 ∧
    ((hashmap_put memB true false (some mapC4) 7 3).2.1).elim 0
      Hashmap.capacity = 2 := by
  refine ⟨?_, rfl, ?_⟩ <;> decide

/-- C7 (counterexample): on a table of key length 2 storing the 2-byte key
[1, 2] with value 7, a `hashmap_get` with a pointer to the longer 3-byte
buffer [1, 2, 3] — a key of length L+1 sharing the byte prefix — returns
the stored value 7 and `hashmap_contains` reports true, not the claimed
"not found": the lookup reads exactly `key_size` bytes and consults no
length. -/
theorem c7_counterexample_longer_buffer_found :
    keyBytes mem7 100 2 = [1, 2] ∧
    keyBytes mem7 200 3 = [1, 2, 3] ∧
    hashmap_get mem7
      ((hashmap_put mem7 true true (hashmap_create_with_key_size 4 2 false false)
        100 7).2.1) 200 = 7 ∧
    hashmap_contains mem7
      ((hashmap_put mem7 true true (hashmap_create_with_key_size 4 2 false false)
        100 7).2.1) 200 = true := by
  refine ⟨?_, ?_, ?_, ?_⟩ <;> decide

/-- C7 (amended): `generic_compare` consults no buffer length — two keys
compare equal exactly when their first `key_size` bytes coincide, so a
buffer longer or shorter than a stored key compares equal to it whenever
the `key_size` bytes read agree, and distinct contents within those
`key_size` bytes never compare equal. -/
theorem c7_amended_compare_is_first_key_size_bytes (mem : Nat → Nat)
    (key1 key2 key_size : Nat) :
    generic_compare mem key1 key2 key_size = 0 ↔
      keyBytes mem key1 key_size = keyBytes mem key2 key_size :=
  memcmp_eq_zero_iff mem key_size key1 key2

/-- C9: a key stored with a NULL (0) value pointer is indistinguishable,
at the public interface, from an absent key: `hashmap_get` returns 0 —
the very value it returns for a key never inserted — and
`hashmap_contains` reports false; in general `contains` is false whenever
`get` reports 0. -/
theorem c9_null_value_reads_as_absent (mem : Nat → Nat) (m : Hashmap)
    (k : Nat)
    (hlen : m.buckets.length = m.capacity) (hcap : 0 < m.capacity)
    (hks : 0 < m.key_size) (hk : k ≠ 0) :
    hashmap_get mem ((hashmap_put mem true true (some m) k 0).2.1) k = 0 ∧
    hashmap_contains mem ((hashmap_put mem true true (some m) k 0).2.1) k
      = false ∧
    (∀ (m2 : Option Hashmap) (k2 : Nat), hashmap_get mem m2 k2 = 0 →
      hashmap_contains mem m2 k2 = false) := by
  have hget := (put_then_get_aux mem m k k 0 hlen hcap hks hk hk rfl).2
  refine ⟨hget, by simp [hashmap_contains, hget], ?_⟩
  intro m2 k2 h
  simp [hashmap_contains, h]

theorem c9_witness :
    mapW1.buckets.length = mapW1.capacity ∧ 0 < mapW1.capacity ∧
    0 < mapW1.key_size ∧ (10 : Nat) ≠ 0 ∧
    (hashmap_get memB ((hashmap_put memB true true (some mapW1) 10 0).2.1) 10
        = 0 ∧
     hashmap_contains memB
        ((hashmap_put memB true true (some mapW1) 10 0).2.1) 10 = false ∧
     (∀ (m2 : Option Hashmap) (k2 : Nat), hashmap_get memB m2 k2 = 0 →
       hashmap_contains memB m2 k2 = false)) :=
  ⟨by decide, by decide, by decide, by decide,
   c9_null_value_reads_as_absent memB mapW1 10 (by decide) (by decide)
     (by decide) (by decide)⟩

theorem flatten_perm_getD {α : Type} :
    ∀ (l : List (List α)) (i : Nat), i < l.length →
      List.Perm l.flatten (l.getD i [] ++ (l.set i []).flatten) := by
  intro l
  induction l with
  | nil => intro i hi; simp at hi
  | cons c t ih =>
    intro i hi
    cases i with
    | zero => simp [List.flatten_cons]
    | succ j =>
      have hj : j < t.length := by simpa using hi
      have step := (ih j hj).append_left c
      refine step.trans ?_
      show List.Perm (c ++ (t.getD j [] ++ (t.set j []).flatten))
        (t.getD j [] ++ (c ++ (t.set j []).flatten))
      rw [← List.append_assoc, ← List.append_assoc]
      exact (@List.perm_append_comm _ c (t.getD j [])).append_right _

theorem set_flatten_perm {α : Type} (l : List (List α)) (i : Nat)
    (x : List α) (hi : i < l.length) :
    List.Perm ((l.set i x).flatten) (x ++ (l.set i []).flatten) := by
  have h := flatten_perm_getD (l.set i x) i (by simpa using hi)
  rwa [getD_set_self _ _ _ _ hi, List.set_set] at h

theorem mem_flatten_getD {α : Type} (l : List (List α)) (a : α) :
    a ∈ l.flatten ↔ ∃ i, i < l.length ∧ a ∈ l.getD i [] := by
  rw [List.mem_flatten]
  constructor
  · rintro ⟨s, hs, ha⟩
    obtain ⟨i, hi, hgi⟩ := List.mem_iff_getElem.mp hs
    exact ⟨i, hi, by rw [List.getD_eq_getElem l [] hi, hgi]; exact ha⟩
  · rintro ⟨i, hi, ha⟩
    exact ⟨l[i], List.getElem_mem hi, by rwa [List.getD_eq_getElem l [] hi] at ha⟩

theorem replicate_getD_nil {α : Type} (n i : Nat) :
    (List.replicate n ([] : List α)).getD i [] = [] := by
  by_cases h : i < n
  · rw [List.getD_eq_getElem _ _ (by simpa using h), List.getElem_replicate]
  · exact getD_of_le _ _ _ (by simpa using Nat.le_of_not_lt h)

/-- Facts about the rehoming fold of `hashmap_resize`, for an arbitrary
home function `f` whose values stay below the bucket count. -/
theorem foldl_prependAt_flatten_perm (f : Entry → Nat) (nc : Nat)
    (hf : ∀ e, f e < nc) :
    ∀ (es : List Entry) (nb : List (List Entry)), nb.length = nc →
      List.Perm ((es.foldl (fun nb e => prependAt nb (f e) e) nb).flatten)
        (es ++ nb.flatten) := by
  intro es
  induction es with
  | nil => intro nb hlen; simp
  | cons e rest ih =>
    intro nb hlen
    simp only [List.foldl_cons]
    have hlen' : (prependAt nb (f e) e).length = nc := by
      rw [prependAt_length]; exact hlen
    refine (ih (prependAt nb (f e) e) hlen').trans ?_
    have hidx : f e < nb.length := by rw [hlen]; exact hf e
    have hstep : List.Perm ((prependAt nb (f e) e).flatten) (e :: nb.flatten) := by
      refine (set_flatten_perm nb (f e) _ hidx).trans ?_
      show List.Perm ((e :: nb.getD (f e) []) ++ (nb.set (f e) []).flatten) _
      rw [List.cons_append]
      exact ((flatten_perm_getD nb (f e) hidx).symm).cons e
    refine (hstep.append_left rest).trans ?_
    exact List.perm_middle

theorem foldl_prependAt_placed (f : Entry → Nat) (nc : Nat)
    (hf : ∀ e, f e < nc) :
    ∀ (es : List Entry) (nb : List (List Entry)), nb.length = nc →
      (∀ i, ∀ a ∈ nb.getD i [], f a = i) →
      ∀ i, ∀ a ∈ (es.foldl (fun nb e => prependAt nb (f e) e) nb).getD i [],
        f a = i := by
  intro es
  induction es with
  | nil => intro nb _ h; exact h
  | cons e rest ih =>
    intro nb hlen hplaced
    simp only [List.foldl_cons]
    refine ih (prependAt nb (f e) e) (by rw [prependAt_length]; exact hlen) ?_
    intro i a ha
    by_cases hie : i = f e
    · subst hie
      rw [prependAt, getD_set_self _ _ _ _ (by rw [hlen]; exact hf e)] at ha
      rcases List.mem_cons.mp ha with h | h
      · rw [h]
      · exact hplaced _ a h
    · rw [prependAt, getD_set_of_ne _ _ _ _ _ hie] at ha
      exact hplaced i a ha

/-- With a succeeding allocation, `hashmap_resize` produces a table whose
entries are a permutation of the old ones, each placed in its new home
slot, with all other fields intact. -/
theorem resize_spec (mem : Nat → Nat) (m : Hashmap) (nc : Nat)
    (hnc : 0 < nc) :
    ∃ m2, hashmap_resize mem true m nc = some m2 ∧
      m2.buckets.length = nc ∧ m2.capacity = nc ∧
      m2.size = m.size ∧ m2.key_size = m.key_size ∧
      m2.hash_func = m.hash_func ∧ m2.key_compare = m.key_compare ∧
      m2.key_free = m.key_free ∧ m2.value_free = m.value_free ∧
      List.Perm (entriesOf m2) (entriesOf m) ∧
      (∀ i, ∀ e ∈ m2.buckets.getD i [], hashOf mem m e.key % nc = i) := by
  have hfold : m.buckets.foldl
      (fun nb chain => chain.foldl
        (fun nb e => prependAt nb (hashOf mem m e.key % nc) e) nb)
      (List.replicate nc []) =
      m.buckets.flatten.foldl
        (fun nb e => prependAt nb (hashOf mem m e.key % nc) e)
        (List.replicate nc []) :=
    (List.foldl_flatten _ _ _).symm
  refine ⟨_, rfl, ?_, rfl, rfl, rfl, rfl, rfl, rfl, rfl, ?_, ?_⟩
  · show (m.buckets.foldl _ (List.replicate nc [])).length = nc
    rw [hfold, foldl_prependAt_length (fun e => hashOf mem m e.key % nc),
      List.length_replicate]
  · show List.Perm ((m.buckets.foldl _ (List.replicate nc [])).flatten)
      (entriesOf m)
    rw [hfold]
    have h := foldl_prependAt_flatten_perm (fun e => hashOf mem m e.key % nc)
      nc (fun e => Nat.mod_lt _ hnc) m.buckets.flatten (List.replicate nc [])
      (List.length_replicate nc [])
    simpa [entriesOf] using h
  · show ∀ i, ∀ e ∈ (m.buckets.foldl _ (List.replicate nc [])).getD i [], _
    rw [hfold]
    exact foldl_prependAt_placed (fun e => hashOf mem m e.key % nc) nc
      (fun e => Nat.mod_lt _ hnc) m.buckets.flatten (List.replicate nc [])
      (List.length_replicate nc [])
      (fun i a ha => by rw [replicate_getD_nil] at ha; cases ha)

theorem find?_congr_on {α : Type} (p q : α → Bool) :
    ∀ (l : List α), (∀ a ∈ l, p a = q a) → l.find? p = l.find? q := by
  intro l
  induction l with
  | nil => intro _; rfl
  | cons a t ih =>
    intro h
    cases hpa : p a with
    | true =>
      rw [List.find?_cons_of_pos _ hpa,
        List.find?_cons_of_pos _ (by rw [← h a (by simp), hpa])]
    | false =>
      rw [List.find?_cons_of_neg _ (by simp [hpa]),
        List.find?_cons_of_neg _ (by simp [← h a (by simp), hpa]),
        ih (fun x hx => h x (by simp [hx]))]

/-- Key-content uniqueness turns the lookup predicate into one satisfied
by at most one list position. -/
theorem bytePred_unique (mem : Nat → Nat) (ks : Nat) (kb : List Nat)
    (l : List Entry)
    (hnd : List.Pairwise Ne (l.map (entryBytes mem ks))) :
    List.Pairwise
      (fun a b => ¬(bytePred mem ks kb a = true ∧ bytePred mem ks kb b = true))
      l := by
  rw [List.pairwise_map] at hnd
  refine hnd.imp ?_
  intro a b hne hab
  obtain ⟨ha, hb⟩ := hab
  simp only [bytePred, decide_eq_true_eq] at ha hb
  exact hne (ha.trans hb.symm)

theorem find?_eq_of_perm_unique {p : Entry → Bool} {l l' : List Entry}
    (hperm : List.Perm l l')
    (huniq : List.Pairwise (fun a b => ¬(p a = true ∧ p b = true)) l) :
    l.find? p = l'.find? p := by
  have hsymm : Symmetric (fun a b : Entry => ¬(p a = true ∧ p b = true)) :=
    fun a b h hab => h ⟨hab.2, hab.1⟩
  cases h1 : l.find? p with
  | none =>
    cases h2 : l'.find? p with
    | none => rfl
    | some b =>
      have hbl : b ∈ l := hperm.mem_iff.mpr (List.mem_of_find?_eq_some h2)
      rw [List.find?_eq_none] at h1
      exact absurd (List.find?_some h2) (by simpa using h1 b hbl)
  | some a =>
    have hpa := List.find?_some h1
    have hal : a ∈ l := List.mem_of_find?_eq_some h1
    cases h2 : l'.find? p with
    | none =>
      rw [List.find?_eq_none] at h2
      exact absurd hpa (by simpa using h2 a (hperm.subset hal))
    | some b =>
      have hpb := List.find?_some h2
      have hbl : b ∈ l := hperm.mem_iff.mpr (List.mem_of_find?_eq_some h2)
      by_cases hab : a = b
      · rw [hab]
      · exact absurd ⟨hpa, hpb⟩ (huniq.forall hsymm hal hbl hab)

/-- Between two tables of the same key size whose entries are a
permutation of each other, and whose contents have no duplicated key
bytes, every lookup agrees. -/
theorem lookupVal_eq_of_perm (mem : Nat → Nat) (m m' : Hashmap)
    (hks : m'.key_size = m.key_size)
    (hperm : List.Perm (entriesOf m') (entriesOf m))
    (hnd : List.Pairwise Ne ((entriesOf m).map (entryBytes mem m.key_size)))
    (kb : List Nat) :
    lookupVal mem m' kb = lookupVal mem m kb := by
  unfold lookupVal
  rw [hks]
  have h := find?_eq_of_perm_unique
    hperm.symm (bytePred_unique mem m.key_size kb _ hnd)
  exact congrArg (Option.map Entry.value) h.symm

/-- Under the table invariant, searching the home bucket of a key content
is the same as searching every chain. -/
theorem bucket_find_eq_global (mem : Nat → Nat) (m : Hashmap)
    (hInv : TableInv mem m) (kb : List Nat) :
    (m.buckets.getD (fnvFold kb % m.capacity) []).find?
        (bytePred mem m.key_size kb) =
      (entriesOf m).find? (bytePred mem m.key_size kb) := by
  obtain ⟨hlen, hcap, hks, hplaced, hnd⟩ := hInv
  have hhome : ∀ e : Entry, bytePred mem m.key_size kb e = true →
      hashOf mem m e.key % m.capacity = fnvFold kb % m.capacity := by
    intro e he
    simp only [bytePred, decide_eq_true_eq, entryBytes] at he
    rw [hashOf, if_pos hks, generic_hash, he]
  have hb : fnvFold kb % m.capacity < m.buckets.length := by
    rw [hlen]; exact Nat.mod_lt _ hcap
  have hsub : ∀ e ∈ m.buckets.getD (fnvFold kb % m.capacity) [],
      e ∈ entriesOf m := by
    intro e he
    exact (mem_flatten_getD m.buckets e).mpr ⟨_, hb, he⟩
  have hin : ∀ e : Entry, bytePred mem m.key_size kb e = true →
      e ∈ entriesOf m → e ∈ m.buckets.getD (fnvFold kb % m.capacity) [] := by
    intro e he hmem
    obtain ⟨i, hi, hgi⟩ := (mem_flatten_getD m.buckets e).mp hmem
    have := hplaced i hi e hgi
    rwa [this.symm.trans (hhome e he)] at hgi
  cases hloc : (m.buckets.getD (fnvFold kb % m.capacity) []).find?
      (bytePred mem m.key_size kb) with
  | none =>
    cases hglob : (entriesOf m).find? (bytePred mem m.key_size kb) with
    | none => rfl
    | some a =>
      have hpa := List.find?_some hglob
      have hmem := List.mem_of_find?_eq_some hglob
      rw [List.find?_eq_none] at hloc
      exact absurd hpa (by simpa using hloc a (hin a hpa hmem))
  | some e =>
    have hpe := List.find?_some hloc
    have hmeme := hsub e (List.mem_of_find?_eq_some hloc)
    cases hglob : (entriesOf m).find? (bytePred mem m.key_size kb) with
    | none =>
      rw [List.find?_eq_none] at hglob
      exact absurd hpe (by simpa using hglob e hmeme)
    | some a =>
      have hpa := List.find?_some hglob
      have hmema := List.mem_of_find?_eq_some hglob
      by_cases hea : e = a
      · rw [hea]
      · have huniq := bytePred_unique mem m.key_size kb _ hnd
        have hsymm : Symmetric (fun a b : Entry =>
            ¬(bytePred mem m.key_size kb a = true ∧
              bytePred mem m.key_size kb b = true)) :=
          fun a b h hab => h ⟨hab.2, hab.1⟩
        exact absurd ⟨hpe, hpa⟩ (huniq.forall hsymm hmeme hmema hea)

theorem scanGet_eq_find? (mem : Nat → Nat) (m : Hashmap) (k : Nat) :
    ∀ chain, scanGet mem m k chain =
      ((chain.find? (fun e => decide (keyCmp mem m e.key k = 0))).map
        Entry.value).getD 0 := by
  intro chain
  induction chain with
  | nil => rfl
  | cons e rest ih =>
    by_cases h : keyCmp mem m e.key k = 0
    · rw [List.find?_cons_of_pos _ (by simpa using h)]
      simp [scanGet, h]
    · rw [List.find?_cons_of_neg _ (by simpa using h)]
      simp only [scanGet, if_neg h]
      exact ih

/-- Under the table invariant, `hashmap_get` returns the (unique) stored
value pointer for the key's byte content, or NULL when absent. -/
theorem get_eq_lookupVal (mem : Nat → Nat) (m : Hashmap) (k : Nat)
    (hInv : TableInv mem m) (hk : k ≠ 0) :
    hashmap_get mem (some m) k =
      (lookupVal mem m (keyBytes mem k m.key_size)).getD 0 := by
  obtain ⟨hlen, hcap, hks, hplaced, hnd⟩ := hInv
  simp only [hashmap_get, if_neg hk]
  rw [scanGet_eq_find?]
  have hpred : ∀ e ∈ m.buckets.getD (hashOf mem m k % m.capacity) [],
      (fun e => decide (keyCmp mem m e.key k = 0)) e =
        bytePred mem m.key_size (keyBytes mem k m.key_size) e := by
    intro e _
    simp only [bytePred, entryBytes]
    exact decide_eq_decide.mpr (keyCmp_eq_zero_iff mem m hks e.key k)
  rw [find?_congr_on _ _ _ hpred]
  have hhash : hashOf mem m k = fnvFold (keyBytes mem k m.key_size) := by
    rw [hashOf, if_pos hks, generic_hash]
  rw [hhash, bucket_find_eq_global mem m ⟨hlen, hcap, hks, hplaced, hnd⟩]
  rfl

theorem bytePred_eq_keyCmp_pred (mem : Nat → Nat) (m : Hashmap)
    (hks : 0 < m.key_size) (k : Nat) (e : Entry) :
    bytePred mem m.key_size (keyBytes mem k m.key_size) e =
      decide (keyCmp mem m e.key k = 0) := by
  simp only [bytePred, entryBytes]
  exact (decide_eq_decide.mpr (keyCmp_eq_zero_iff mem m hks e.key k)).symm

/-- Complete characterization of the update scan: either no entry of the
chain matches (and the scan reports `none`), or the chain splits around
the first matching entry `e`, whose value is overwritten, the old value
being released exactly when a `value_free` is configured and the pointers
differ. -/
theorem scanUpdate_spec (mem : Nat → Nat) (m : Hashmap) (k v : Nat) :
    ∀ chain : List Entry,
      (scanUpdate mem m k v chain = none ∧
        chain.find? (fun e => decide (keyCmp mem m e.key k = 0)) = none) ∨
      (∃ pre e post, chain = pre ++ e :: post ∧
        (∀ x ∈ pre, ¬ keyCmp mem m x.key k = 0) ∧
        keyCmp mem m e.key k = 0 ∧
        scanUpdate mem m k v chain =
          some (pre ++ { e with value := v } :: post,
            if m.value_free ∧ e.value ≠ v then [e.value] else []) ∧
        chain.find? (fun e => decide (keyCmp mem m e.key k = 0)) = some e) := by
  intro chain
  induction chain with
  | nil => exact Or.inl ⟨rfl, rfl⟩
  | cons a rest ih =>
    by_cases h : keyCmp mem m a.key k = 0
    · refine Or.inr ⟨[], a, rest, rfl, by simp, h, by simp [scanUpdate, h], ?_⟩
      rw [List.find?_cons_of_pos _ (by simpa using h)]
    · rcases ih with ⟨hnone, hfind⟩ | ⟨pre, e, post, hch, hpre, he, hupd, hfind⟩
      · refine Or.inl ⟨?_, ?_⟩
        · simp only [scanUpdate, if_neg h, hnone]
        · rw [List.find?_cons_of_neg _ (by simpa using h), hfind]
      · refine Or.inr ⟨a :: pre, e, post, by rw [List.cons_append, ← hch], ?_,
          he, ?_, ?_⟩
        · intro x hx
          rcases List.mem_cons.mp hx with rfl | hx
          · exact h
          · exact hpre x hx
        · simp only [scanUpdate, if_neg h, hupd, List.cons_append]
        · rw [List.find?_cons_of_neg _ (by simpa using h), hfind]

/-- The load-factor step preserves the table invariant, every non-bucket
field except capacity, and the entries up to permutation. -/
theorem grow_spec (mem : Nat → Nat) (m : Hashmap) (hInv : TableInv mem m) :
    ∃ m1, growIfNeeded mem true m = some m1 ∧ TableInv mem m1 ∧
      m1.key_size = m.key_size ∧ m1.size = m.size ∧
      m1.hash_func = m.hash_func ∧ m1.key_compare = m.key_compare ∧
      m1.key_free = m.key_free ∧ m1.value_free = m.value_free ∧
      (m1.capacity = m.capacity ∨ m1.capacity = m.capacity * 2) ∧
      List.Perm (entriesOf m1) (entriesOf m) := by
  obtain ⟨hlen, hcap, hks, hplaced, hnd⟩ := hInv
  unfold growIfNeeded
  by_cases hload : m.capacity * 3 / 4 ≤ m.size
  · rw [if_pos hload]
    obtain ⟨m2, hres, hblen, hcap2, hsz, hks2, hhf, hkc, hkf, hvf, hperm,
      hplaced2⟩ := resize_spec mem m (m.capacity * 2) (by omega)
    refine ⟨m2, hres, ⟨?_, ?_, ?_, ?_, ?_⟩, hks2, hsz, hhf, hkc, hkf, hvf,
      Or.inr hcap2, hperm⟩
    · rw [hblen, hcap2]
    · rw [hcap2]; omega
    · rw [hks2]; exact hks
    · intro i hi e he
      rw [hashOf_ext mem m m2 hks2 hhf, hcap2]
      exact hplaced2 i e he
    · rw [hks2]
      exact ((hperm.map (entryBytes mem m.key_size)).pairwise_iff
        (fun h => Ne.symm h)).mpr hnd
  · rw [if_neg hload]
    exact ⟨m, rfl, ⟨hlen, hcap, hks, hplaced, hnd⟩, rfl, rfl, rfl, rfl, rfl,
      rfl, Or.inl rfl, List.Perm.refl _⟩

/-- The table invariant for a map that only had its buckets (and possibly
`size`) changed, stated over the new bucket list directly. -/
theorem TableInv_mk_of (mem : Nat → Nat) (m1 : Hashmap)
    (bs : List (List Entry)) (sz : Nat)
    (hlen : bs.length = m1.capacity) (hcap : 0 < m1.capacity)
    (hks : 0 < m1.key_size)
    (hplaced : ∀ i, i < bs.length → ∀ e ∈ bs.getD i [],
      hashOf mem m1 e.key % m1.capacity = i)
    (hnd : List.Pairwise Ne (bs.flatten.map (entryBytes mem m1.key_size))) :
    TableInv mem { m1 with buckets := bs, size := sz } := by
  refine ⟨hlen, hcap, hks, ?_, hnd⟩
  intro i hi e he
  rw [hashOf_ext mem m1 { m1 with buckets := bs, size := sz } rfl rfl]
  exact hplaced i hi e he

theorem lookupVal_mk (mem : Nat → Nat) (m1 : Hashmap)
    (bs : List (List Entry)) (sz : Nat) (kb : List Nat) :
    lookupVal mem { m1 with buckets := bs, size := sz } kb =
      (bs.flatten.find? (bytePred mem m1.key_size kb)).map Entry.value := rfl

theorem put_spec (mem : Nat → Nat) (m : Hashmap) (k v : Nat)
    (hInv : TableInv mem m) (hk : k ≠ 0) :
    ∃ m', hashmap_put mem true true (some m) k v =
        (true, some m',
          match lookupVal mem m (keyBytes mem k m.key_size) with
          | some w => if m.value_free ∧ w ≠ v then [w] else []
          | none => []) ∧
      TableInv mem m' ∧
      m'.key_size = m.key_size ∧ m'.value_free = m.value_free ∧
      m'.key_free = m.key_free ∧
      (∀ kb, lookupVal mem m' kb =
        if kb = keyBytes mem k m.key_size then some v
        else lookupVal mem m kb) ∧
      m'.size = (match lookupVal mem m (keyBytes mem k m.key_size) with
          | some _ => m.size
          | none => m.size + 1) ∧
      List.Perm ((entriesOf m').map Entry.key)
        ((match lookupVal mem m (keyBytes mem k m.key_size) with
          | some _ => []
          | none => [k]) ++ (entriesOf m).map Entry.key) := by
  have hnd0 := hInv.2.2.2.2
  obtain ⟨m1, hgrow, hInv1, hks1, hsz1, hhf1, hkc1, hkf1, hvf1, hcapor,
    hperm1⟩ := grow_spec mem m hInv
  obtain ⟨hlen1, hcap1, hks1p, hplaced1, hnd1⟩ := hInv1
  have hInv1' : TableInv mem m1 := ⟨hlen1, hcap1, hks1p, hplaced1, hnd1⟩
  have hlook1 : ∀ kb, lookupVal mem m1 kb = lookupVal mem m kb :=
    fun kb => lookupVal_eq_of_perm mem m m1 hks1 hperm1 hnd0 kb
  have hb : hashOf mem m1 k % m1.capacity < m1.buckets.length := by
    rw [hlen1]; exact Nat.mod_lt _ hcap1
  have hhashk : hashOf mem m1 k = fnvFold (keyBytes mem k m1.key_size) := by
    rw [hashOf, if_pos hks1p, generic_hash]
  have hrest := flatten_perm_getD m1.buckets (hashOf mem m1 k % m1.capacity) hb
  simp only [hashmap_put, if_neg hk, hgrow]
  rcases scanUpdate_spec mem m1 k v
      (m1.buckets.getD (hashOf mem m1 k % m1.capacity) [])
    with ⟨hnone, hfind⟩ | ⟨pre, e, post, hch, hpre, he, hupd, hfind⟩
  · -- INSERT: no matching entry in the home chain, hence nowhere
    have hfindB : (m1.buckets.getD
        (fnvFold (keyBytes mem k m1.key_size) % m1.capacity) []).find?
        (bytePred mem m1.key_size (keyBytes mem k m1.key_size)) = none := by
      rw [← hhashk, find?_congr_on _ _ _
        (fun e _ => bytePred_eq_keyCmp_pred mem m1 hks1p k e)]
      exact hfind
    have hglob : (entriesOf m1).find?
        (bytePred mem m1.key_size (keyBytes mem k m1.key_size)) = none := by
      rw [← bucket_find_eq_global mem m1 hInv1']
      exact hfindB
    have hlookK1 : lookupVal mem m1 (keyBytes mem k m1.key_size) = none := by
      unfold lookupVal
      rw [hglob]
      rfl
    have hlookK : lookupVal mem m (keyBytes mem k m.key_size) = none := by
      rw [← hks1, ← hlook1]
      exact hlookK1
    have hpermSet : List.Perm
        ((m1.buckets.set (hashOf mem m1 k % m1.capacity)
          (({ key := k, value := v } : Entry) ::
            m1.buckets.getD (hashOf mem m1 k % m1.capacity) [])).flatten)
        (({ key := k, value := v } : Entry) :: entriesOf m1) := by
      refine (set_flatten_perm m1.buckets _ _ hb).trans ?_
      rw [List.cons_append]
      exact (hrest.symm).cons _
    have hnd' : List.Pairwise Ne
        (((m1.buckets.set (hashOf mem m1 k % m1.capacity)
          (({ key := k, value := v } : Entry) ::
            m1.buckets.getD (hashOf mem m1 k % m1.capacity) [])).flatten).map
          (entryBytes mem m1.key_size)) := by
      refine ((hpermSet.map (entryBytes mem m1.key_size)).pairwise_iff
        (fun h => Ne.symm h)).mpr ?_
      rw [List.map_cons]
      refine List.Pairwise.cons ?_ hnd1
      intro y hy
      obtain ⟨z, hz, rfl⟩ := List.mem_map.mp hy
      have hnotin : entryBytes mem m1.key_size z ≠ keyBytes mem k m1.key_size := by
        rw [List.find?_eq_none] at hglob
        simpa [bytePred] using hglob z hz
      have hnewb : entryBytes mem m1.key_size ({ key := k, value := v } : Entry)
          = keyBytes mem k m1.key_size := rfl
      rw [hnewb]
      exact Ne.symm hnotin
    simp only [hnone, if_true, hlookK]
    refine ⟨_, rfl, ?_, hks1, hvf1, hkf1, ?_, ?_, ?_⟩
    · refine TableInv_mk_of mem m1 _ _ ?_ hcap1 hks1p ?_ hnd'
      · rw [List.length_set]
        exact hlen1
      · intro i hi x hx
        by_cases hib : i = hashOf mem m1 k % m1.capacity
        · subst hib
          rw [getD_set_self _ _ _ _ hb] at hx
          rcases List.mem_cons.mp hx with rfl | hx2
          · rfl
          · exact hplaced1 _ hb x hx2
        · rw [getD_set_of_ne _ _ _ _ _ hib] at hx
          rw [List.length_set] at hi
          exact hplaced1 i hi x hx
    · intro kb
      rw [lookupVal_mk, find?_eq_of_perm_unique hpermSet
        (bytePred_unique mem m1.key_size kb _ hnd')]
      by_cases hkb : kb = keyBytes mem k m.key_size
      · rw [if_pos hkb]
        have hkb1 : kb = keyBytes mem k m1.key_size := by rw [hks1]; exact hkb
        rw [List.find?_cons_of_pos _ (by simp [bytePred, entryBytes, hkb1])]
        rfl
      · rw [if_neg hkb]
        have hkb1 : kb ≠ keyBytes mem k m1.key_size := by rw [hks1]; exact hkb
        rw [List.find?_cons_of_neg _
          (by simp [bytePred, entryBytes]; exact fun h => hkb1 h.symm)]
        show lookupVal mem m1 kb = lookupVal mem m kb
        exact hlook1 kb
    · show m1.size + 1 = m.size + 1
      rw [hsz1]
    · refine (hpermSet.map Entry.key).trans ?_
      rw [List.map_cons]
      exact (hperm1.map Entry.key).cons k
  · -- UPDATE: the chain splits around the first matching entry e
    have hfindB : (m1.buckets.getD
        (fnvFold (keyBytes mem k m1.key_size) % m1.capacity) []).find?
        (bytePred mem m1.key_size (keyBytes mem k m1.key_size)) = some e := by
      rw [← hhashk, find?_congr_on _ _ _
        (fun e _ => bytePred_eq_keyCmp_pred mem m1 hks1p k e)]
      exact hfind
    have hglob : (entriesOf m1).find?
        (bytePred mem m1.key_size (keyBytes mem k m1.key_size)) = some e := by
      rw [← bucket_find_eq_global mem m1 hInv1']
      exact hfindB
    have hlookK1 : lookupVal mem m1 (keyBytes mem k m1.key_size)
        = some e.value := by
      unfold lookupVal
      rw [hglob]
      rfl
    have hlookK : lookupVal mem m (keyBytes mem k m.key_size)
        = some e.value := by
      rw [← hks1, ← hlook1]
      exact hlookK1
    have hbytese : entryBytes mem m1.key_size e = keyBytes mem k m1.key_size := by
      have := List.find?_some hglob
      simpa [bytePred] using this
    have hpermSet : List.Perm
        ((m1.buckets.set (hashOf mem m1 k % m1.capacity)
          (pre ++ ({ e with value := v } : Entry) :: post)).flatten)
        ((pre ++ ({ e with value := v } : Entry) :: post) ++
          (m1.buckets.set (hashOf mem m1 k % m1.capacity) []).flatten) :=
      set_flatten_perm m1.buckets _ _ hb
    have hmapEq : ∀ {β : Type} (f : Entry → β),
        f ({ e with value := v } : Entry) = f e →
        ((pre ++ ({ e with value := v } : Entry) :: post) ++
          (m1.buckets.set (hashOf mem m1 k % m1.capacity) []).flatten).map f =
        ((m1.buckets.getD (hashOf mem m1 k % m1.capacity) []) ++
          (m1.buckets.set (hashOf mem m1 k % m1.capacity) []).flatten).map f := by
      intro β f hf
      rw [hch]
      simp [List.map_append, hf]
    have hnd' : List.Pairwise Ne
        (((m1.buckets.set (hashOf mem m1 k % m1.capacity)
          (pre ++ ({ e with value := v } : Entry) :: post)).flatten).map
          (entryBytes mem m1.key_size)) := by
      refine ((hpermSet.map (entryBytes mem m1.key_size)).pairwise_iff
        (fun h => Ne.symm h)).mpr ?_
      rw [hmapEq (entryBytes mem m1.key_size) rfl]
      exact ((hrest.map (entryBytes mem m1.key_size)).pairwise_iff
        (fun h => Ne.symm h)).mp hnd1
    simp only [hupd, hlookK]
    refine ⟨{ m1 with buckets := (m1.buckets.set (hashOf mem m1 k % m1.capacity) (pre ++ ({ e with value := v } : Entry) :: post)) }, ?_, ?_, hks1, hvf1, hkf1, ?_, ?_, ?_⟩
    · rw [hvf1]
    · exact TableInv_mk_of mem m1 _ m1.size
        (by rw [List.length_set]; exact hlen1) hcap1 hks1p
        (by
          intro i hi x hx
          by_cases hib : i = hashOf mem m1 k % m1.capacity
          · subst hib
            rw [getD_set_self _ _ _ _ hb] at hx
            have hxkey : ∃ y ∈ m1.buckets.getD (hashOf mem m1 k % m1.capacity) [],
                x.key = y.key := by
              rcases List.mem_append.mp hx with hx1 | hx1
              · exact ⟨x, (by rw [hch]; exact List.mem_append_left _ hx1), rfl⟩
              · rcases List.mem_cons.mp hx1 with rfl | hx2
                · exact ⟨e, (by
                    rw [hch]
                    exact List.mem_append_right _ (List.mem_cons_self e post)), rfl⟩
                · exact ⟨x, (by
                    rw [hch]
                    exact List.mem_append_right _ (List.mem_cons_of_mem e hx2)), rfl⟩
            obtain ⟨y, hy, hxy⟩ := hxkey
            rw [hxy]
            exact hplaced1 _ hb y hy
          · rw [getD_set_of_ne _ _ _ _ _ hib] at hx
            rw [List.length_set] at hi
            exact hplaced1 i hi x hx) hnd'
    · intro kb
      rw [lookupVal_mk, find?_eq_of_perm_unique hpermSet
        (bytePred_unique mem m1.key_size kb _ hnd')]
      by_cases hkb : kb = keyBytes mem k m.key_size
      · rw [if_pos hkb]
        have hkb1 : kb = keyBytes mem k m1.key_size := by rw [hks1]; exact hkb
        have hpre' : pre.find? (bytePred mem m1.key_size kb) = none := by
          rw [List.find?_eq_none]
          intro x hx
          have hxk := hpre x hx
          rw [keyCmp_eq_zero_iff mem m1 hks1p] at hxk
          simp only [bytePred, entryBytes, decide_eq_true_eq]
          rw [hkb1]
          exact hxk
        have hupd' : bytePred mem m1.key_size kb ({ e with value := v } : Entry)
            = true := by
          simp only [bytePred, entryBytes, decide_eq_true_eq]
          rw [hkb1]
          simpa [entryBytes] using hbytese
        rw [List.find?_append, List.find?_append, hpre',
          List.find?_cons_of_pos _ hupd']
        rfl
      · rw [if_neg hkb]
        have hkb1 : kb ≠ keyBytes mem k m1.key_size := by rw [hks1]; exact hkb
        have hee : bytePred mem m1.key_size kb e = false := by
          apply decide_eq_false
          intro h
          simp only [entryBytes] at h hbytese
          exact hkb1 (h.symm.trans hbytese)
        have hup : bytePred mem m1.key_size kb ({ e with value := v } : Entry)
            = false := by
          apply decide_eq_false
          intro h
          simp only [entryBytes] at h hbytese
          exact hkb1 (h.symm.trans hbytese)
        have hglobkb : (entriesOf m1).find? (bytePred mem m1.key_size kb) =
            ((pre ++ e :: post) ++
              (m1.buckets.set (hashOf mem m1 k % m1.capacity) []).flatten).find?
              (bytePred mem m1.key_size kb) := by
          refine find?_eq_of_perm_unique ?_ (bytePred_unique mem m1.key_size kb _ hnd1)
          rw [← hch]
          exact hrest
        rw [List.find?_append, List.find?_append,
          List.find?_cons_of_neg _ (by simp [hup]), ← hlook1 kb]
        show _ = ((entriesOf m1).find? (bytePred mem m1.key_size kb)).map Entry.value
        rw [hglobkb, List.find?_append, List.find?_append,
          List.find?_cons_of_neg _ (by simp [hee])]
    · exact hsz1
    · refine (hpermSet.map Entry.key).trans ?_
      rw [hmapEq Entry.key rfl]
      refine ((hrest.symm).map Entry.key).trans ?_
      exact hperm1.map Entry.key

theorem replicate_flatten_nil {α : Type} :
    ∀ n : Nat, (List.replicate n ([] : List α)).flatten = [] := by
  intro n
  induction n with
  | zero => rfl
  | succ n ih => simp [List.replicate_succ, ih]

/-- Folding successful puts over a pair list from a valid table: the fold
stays a valid table of the same key size, keys not mentioned keep their
lookup, and when the pairs have pairwise distinct key bytes, every pair's
key looks up to its value afterwards. -/
theorem putAll_spec (mem : Nat → Nat) :
    ∀ (ps : List (Nat × Nat)) (m : Hashmap), TableInv mem m →
      (∀ p ∈ ps, p.1 ≠ 0) →
      ∃ mf, putAll mem (some m) ps = some mf ∧ TableInv mem mf ∧
        mf.key_size = m.key_size ∧
        (∀ kb, (∀ p ∈ ps, keyBytes mem p.1 m.key_size ≠ kb) →
          lookupVal mem mf kb = lookupVal mem m kb) ∧
        (List.Pairwise (fun a b : Nat × Nat =>
            keyBytes mem a.1 m.key_size ≠ keyBytes mem b.1 m.key_size) ps →
          ∀ p ∈ ps, lookupVal mem mf (keyBytes mem p.1 m.key_size)
            = some p.2) := by
  intro ps
  induction ps with
  | nil =>
    intro m hInv _
    exact ⟨m, rfl, hInv, rfl, fun kb _ => rfl, fun _ p hp => absurd hp
      (List.not_mem_nil p)⟩
  | cons q ps ih =>
    intro m hInv hkeys
    obtain ⟨m', heq, hInv', hks', hvf', hkf', hlook', hsize', hperm'⟩ :=
      put_spec mem m q.1 q.2 hInv (hkeys q (List.mem_cons_self q ps))
    obtain ⟨mf, hfold, hInvf, hksf, hframe, hlast⟩ := ih m' hInv'
      (fun p hp => hkeys p (List.mem_cons_of_mem q hp))
    have hstep : putAll mem (some m) (q :: ps) = putAll mem (some m') ps := by
      show putAll mem ((hashmap_put mem true true (some m) q.1 q.2).2.1) ps = _
      rw [heq]
    refine ⟨mf, by rw [hstep]; exact hfold, hInvf, by rw [hksf]; exact hks',
      ?_, ?_⟩
    · intro kb hkb
      rw [hframe kb (fun p hp => by
          rw [hks']
          exact hkb p (List.mem_cons_of_mem q hp)),
        hlook' kb, if_neg ?_]
      exact Ne.symm (hkb q (List.mem_cons_self q ps))
    · intro hdist p hp
      have hdist' := List.pairwise_cons.mp hdist
      rcases List.mem_cons.mp hp with rfl | hp2
      · rw [hframe _ (fun r hr => by
            rw [hks']
            exact Ne.symm (hdist'.1 r hr)),
          hlook' _, if_pos rfl]
      · have hdist2 : List.Pairwise (fun a b : Nat × Nat =>
            keyBytes mem a.1 m'.key_size ≠ keyBytes mem b.1 m'.key_size) ps := by
          rw [hks']
          exact hdist'.2
        have := hlast hdist2 p hp2
        rw [hks'] at this
        exact this

/-- C6: starting from a freshly created generic-mode table of any
capacity hint and key length, inserting any list of pairs with pairwise
distinct key bytes (crossing the 0.75 load-factor threshold as often as
the list forces, each crossing doubling capacity and rehoming every entry
into `hash % new_capacity`) leaves every inserted key retrievable by
`hashmap_get` with its value. -/
theorem c6_growth_preserves_contents (mem : Nat → Nat) (cap ks : Nat)
    (kf vf : Bool) (hks : 0 < ks) (ps : List (Nat × Nat))
    (hkeys : ∀ p ∈ ps, p.1 ≠ 0)
    (hdist : List.Pairwise (fun a b : Nat × Nat =>
      keyBytes mem a.1 ks ≠ keyBytes mem b.1 ks) ps) :
    ∀ p ∈ ps, hashmap_get mem
      (putAll mem (hashmap_create_with_key_size cap ks kf vf) ps) p.1
      = p.2 := by
  intro p hp
  have hm0 : hashmap_create_with_key_size cap ks kf vf = some
      { buckets := List.replicate (if cap = 0 then 16 else cap) [],
        capacity := if cap = 0 then 16 else cap, size := 0, key_size := ks,
        hash_func := none, key_compare := none, key_free := kf,
        value_free := vf } := by
    unfold hashmap_create_with_key_size
    rw [if_neg (by omega : ¬ ks = 0)]
  have hInv0 : TableInv mem
      { buckets := List.replicate (if cap = 0 then 16 else cap) [],
        capacity := if cap = 0 then 16 else cap, size := 0, key_size := ks,
        hash_func := none, key_compare := none, key_free := kf,
        value_free := vf } := by
    refine ⟨by rw [List.length_replicate], ?_, hks, ?_, ?_⟩
    · show 0 < (if cap = 0 then 16 else cap)
      split <;> omega
    · intro i _ e he
      rw [replicate_getD_nil] at he
      cases he
    · show List.Pairwise Ne ((List.replicate (if cap = 0 then 16 else cap)
        ([] : List Entry)).flatten.map _)
      rw [replicate_flatten_nil]
      exact List.Pairwise.nil
  obtain ⟨mf, hfold, hInvf, hksf, hframe, hlast⟩ :=
    putAll_spec mem ps _ hInv0 hkeys
  rw [hm0, hfold]
  rw [get_eq_lookupVal mem mf p.1 hInvf (hkeys p hp)]
  have hksf' : mf.key_size = ks := hksf
  rw [hksf', hlast hdist p hp]
  rfl

theorem c6_witness :
    0 < 1 ∧ (∀ p ∈ pairsW, p.1 ≠ 0) ∧
    List.Pairwise (fun a b : Nat × Nat =>
      keyBytes memB a.1 1 ≠ keyBytes memB b.1 1) pairsW ∧
    ((20, 2) : Nat × Nat) ∈ pairsW ∧
    hashmap_get memB
      (putAll memB (hashmap_create_with_key_size 1 1 false false) pairsW) 20
      = 2 :=
  ⟨by decide, by decide, by decide, by decide,
   c6_growth_preserves_contents memB 1 1 false false (by decide) pairsW
     (by decide) (by decide) (20, 2) (by decide)⟩

/-- C5: for a valid table storing value `w` under key `k`, `hashmap_put`
of a new value `v` is an update: it succeeds, releases exactly `[w]` via
`value_free` precisely when a `value_free` is configured and `w` differs
from `v` (and releases nothing otherwise), replaces the stored value with
`v`, leaves `size` and the stored key pointers (hence the stored key
bytes, which the library never writes) unchanged. -/
theorem c5_put_existing_key_updates (mem : Nat → Nat) (m : Hashmap)
    (k v w : Nat) (hInv : TableInv mem m) (hk : k ≠ 0)
    (hstored : lookupVal mem m (keyBytes mem k m.key_size) = some w) :
    ∃ m', hashmap_put mem true true (some m) k v =
        (true, some m', if m.value_free ∧ w ≠ v then [w] else []) ∧
      m'.size = m.size ∧
      lookupVal mem m' (keyBytes mem k m.key_size) = some v ∧
      List.Perm ((entriesOf m').map Entry.key) ((entriesOf m).map Entry.key) := by
  obtain ⟨m', heq, hInv', hks', hvf', hkf', hlook', hsize', hperm'⟩ :=
    put_spec mem m k v hInv hk
  refine ⟨m', ?_, ?_, ?_, ?_⟩
  · rw [heq, hstored]
  · rw [hsize', hstored]
  · rw [hlook' _, if_pos rfl]
  · rw [hstored] at hperm'
    simpa using hperm'

theorem c5_witness :
    TableInv memB mapC5 ∧ (5 : Nat) ≠ 0 ∧
    lookupVal memB mapC5 (keyBytes memB 5 mapC5.key_size) = some 9 ∧
    (∃ m', hashmap_put memB true true (some mapC5) 5 11 =
        (true, some m', if mapC5.value_free ∧ 9 ≠ 11 then [9] else []) ∧
      m'.size = mapC5.size ∧
      lookupVal memB m' (keyBytes memB 5 mapC5.key_size) = some 11 ∧
      List.Perm ((entriesOf m').map Entry.key)
        ((entriesOf mapC5).map Entry.key)) :=
  ⟨by decide, by decide, by decide,
   c5_put_existing_key_updates memB mapC5 5 11 9 (by decide) (by decide)
     (by decide)⟩

/-- C2 (amended): when `hashmap_put` inserts a genuinely new key, the new
Entry stores the caller's key pointer itself — the multiset of stored key
pointers gains exactly the caller's pointer `k`.  No copy of the key
bytes is allocated: the Entry's key storage is the caller's memory. -/
theorem c2_amended_insert_stores_caller_pointer (mem : Nat → Nat)
    (m : Hashmap) (k v : Nat) (hInv : TableInv mem m) (hk : k ≠ 0)
    (habsent : lookupVal mem m (keyBytes mem k m.key_size) = none) :
    ∃ m', (hashmap_put mem true true (some m) k v).2.1 = some m' ∧
      List.Perm ((entriesOf m').map Entry.key)
        (k :: (entriesOf m).map Entry.key) := by
  obtain ⟨m', heq, hInv', hks', hvf', hkf', hlook', hsize', hperm'⟩ :=
    put_spec mem m k v hInv hk
  refine ⟨m', by rw [heq], ?_⟩
  rw [habsent] at hperm'
  simpa using hperm'

/-- C2 (counterexample): inserting the caller's 2-byte key at pointer 100
into a fresh table stores pointer 100 itself as the Entry's key — the
Entry's key storage aliases the caller's memory, refuting the claim that
a freshly allocated copy is made. -/
theorem c2_counterexample_entry_key_aliases_caller :
    ((hashmap_put memB true true
        (hashmap_create_with_key_size 4 2 false false) 100 7).2.1).elim []
      (fun m => (entriesOf m).map Entry.key) = [100] := by
  decide

theorem c2_witness :
    TableInv memB mapW1 ∧ (10 : Nat) ≠ 0 ∧
    lookupVal memB mapW1 (keyBytes memB 10 mapW1.key_size) = none ∧
    (∃ m', (hashmap_put memB true true (some mapW1) 10 7).2.1 = some m' ∧
      List.Perm ((entriesOf m').map Entry.key)
        (10 :: (entriesOf mapW1).map Entry.key)) :=
  ⟨by decide, by decide, by decide,
   c2_amended_insert_stores_caller_pointer memB mapW1 10 7 (by decide)
     (by decide) (by decide)⟩

/-- C4 (amended): when `hashmap_put` fails — for any allocation-oracle
outcome — no value is released, no entry is added, removed or modified
(the entries of the resulting table are a permutation of the old ones)
and `size` is unchanged; however, when a triggering resize succeeded
before the entry allocation failed, the table keeps the doubled capacity
and the rehashed bucket array rather than reverting. -/
theorem c4_amended_failed_put_keeps_contents (mem : Nat → Nat)
    (co mo : Bool) (m : Hashmap) (k v : Nat) (hcap : 0 < m.capacity)
    (hfail : (hashmap_put mem co mo (some m) k v).1 = false) :
    ∃ m', (hashmap_put mem co mo (some m) k v).2.1 = some m' ∧
      m'.size = m.size ∧
      List.Perm (entriesOf m') (entriesOf m) ∧
      (m'.capacity = m.capacity ∨ m'.capacity = m.capacity * 2) ∧
      (hashmap_put mem co mo (some m) k v).2.2 = [] := by
  by_cases hk : k = 0
  · subst hk
    refine ⟨m, ?_, rfl, List.Perm.refl _, Or.inl rfl, ?_⟩ <;>
      simp [hashmap_put]
  · rcases hgrow : growIfNeeded mem co m with _ | m1
    · have hput : hashmap_put mem co mo (some m) k v = (false, some m, []) := by
        simp [hashmap_put, hk, hgrow]
      rw [hput]
      exact ⟨m, rfl, rfl, List.Perm.refl _, Or.inl rfl, rfl⟩
    · have hm1 : m1 = m ∨ (m1.size = m.size ∧
          List.Perm (entriesOf m1) (entriesOf m) ∧
          m1.capacity = m.capacity * 2) := by
        unfold growIfNeeded at hgrow
        by_cases hload : m.capacity * 3 / 4 ≤ m.size
        · rw [if_pos hload] at hgrow
          cases co with
          | false => simp [hashmap_resize] at hgrow
          | true =>
            obtain ⟨m2, hres, _, hcap2, hsz2, _, _, _, _, _, hperm2, _⟩ :=
              resize_spec mem m (m.capacity * 2) (by omega)
            rw [hres] at hgrow
            right
            rw [← Option.some.inj hgrow]
            exact ⟨hsz2, hperm2, hcap2⟩
        · rw [if_neg hload] at hgrow
          exact Or.inl (Option.some.inj hgrow).symm
      rcases hsc : scanUpdate mem m1 k v
          (m1.buckets.getD (hashOf mem m1 k % m1.capacity) []) with _ | ⟨c1, fr⟩
      · cases mo with
        | false =>
          have hput : hashmap_put mem co false (some m) k v
              = (false, some m1, []) := by
            simp only [hashmap_put, if_neg hk, hgrow, hsc]
            rfl
          rw [hput]
          rcases hm1 with rfl | ⟨hsz, hperm, hcap2⟩
          · exact ⟨m1, rfl, rfl, List.Perm.refl _, Or.inl rfl, rfl⟩
          · exact ⟨m1, rfl, hsz, hperm, Or.inr hcap2, rfl⟩
        | true =>
          have hput1 : (hashmap_put mem co true (some m) k v).1 = true := by
            simp only [hashmap_put, if_neg hk, hgrow, hsc]
            rfl
          rw [hput1] at hfail
          exact absurd hfail (by decide)
      · have hput1 : (hashmap_put mem co mo (some m) k v).1 = true := by
          simp only [hashmap_put, if_neg hk, hgrow, hsc]
        rw [hput1] at hfail
        exact absurd hfail (by decide)

theorem c4_witness :
    0 < mapC4.capacity ∧
    (hashmap_put memB true false (some mapC4) 7 3).1 = false ∧
    (∃ m', (hashmap_put memB true false (some mapC4) 7 3).2.1 = some m' ∧
      m'.size = mapC4.size ∧
      List.Perm (entriesOf m') (entriesOf mapC4) ∧
      (m'.capacity = mapC4.capacity ∨ m'.capacity = mapC4.capacity * 2) ∧
      (hashmap_put memB true false (some mapC4) 7 3).2.2 = []) :=
  ⟨by decide, by decide,
   c4_amended_failed_put_keeps_contents memB true false mapC4 7 3 (by decide)
     (by decide)⟩
